import Mathlib

/-!
Verification of the pyobench benchmark harness (`src/pyobench`): the
benchmark registry and category filter, the single-run pipeline
(`_pipeline.py`), and the historical multi-commit runner (`_history.py`),
shallowly embedded in Lean.

Conventions of the embedding:
* Python `dict` (and pyochain `Dict`) is an association list preserving
  insertion order; pyochain `Option`/`Result` are Lean `Option`/`Except`.
* pyochain `Dict.get_item k` is a plain key lookup returning an `Option`
  (the `Dict` is generic in its key type, so no string-specific matching
  can happen there).
* pyochain `Vec.then_some()` yields `some` of the vector when it is
  truthy (non-empty) and `none` when it is empty.
* pyochain `Result.expect msg` returns the `Ok` payload and, on `Err e`,
  raises an exception whose text is `msg` followed by the error; an
  embedded pipeline outcome therefore distinguishes a returned table
  from a raised exception.
* Timings are rationals (`ℚ`); the timing oracle is an explicit argument,
  so one run of the engine is a pure function of the oracle.
* The registry module `_registery.py` is not among the sources; the few
  facts needed from it (the registry's type, the execution engine's row
  production) are modelled from the spec and marked as such.
-/

/-- A registered benchmark descriptor: category, name and declared input
sizes.  The callable itself is irrelevant to the properties proved here;
its timing behaviour enters through an explicit oracle. -/
structure Benchmark where
  category : String
  name : String
  sizes : List Nat
deriving DecidableEq, Repr

/-- Embedding of `REGISTERY` (sic, the source's spelling): a mapping from category name
to the ordered list of descriptors registered under it, embedded as an
insertion-ordered association list (`pc.Dict[str, pc.Vec[Benchmark]]`). -/
abbrev Registry := List (String × List Benchmark)

/-- pyochain `Dict.get_item`: exact key lookup, returning `none` when the
key is absent. -/
def dictGetItem (d : Registry) (k : String) : Option (List Benchmark) :=
  (d.find? (fun p => p.1 == k)).map Prod.snd

/-- pyochain `Vec.then_some()`: `some` of the vector when non-empty,
`none` when empty (an empty collection is falsy in Python). -/
def vecThenSome (v : List Benchmark) : Option (List Benchmark) :=
  if v.isEmpty then none else some v

/-- Embedding of `_filter_by_category` from `_pipeline.py`: with no category it
flattens all categories' descriptor lists in order and wraps the result
with `then_some`; with a category it performs `registry.get_item(cat)`. -/
def filter_by_category (registry : Registry) (category : Option String) :
    Option (List Benchmark) :=
  match category with
  | none => vecThenSome ((registry.map Prod.snd).flatten)
  | some cat => dictGetItem registry cat

/-- Predicate `startsWithChars needle hay`: `needle` is a leading segment of `hay`. -/
def startsWithChars : List Char → List Char → Bool
  | [], _ => true
  | _ :: _, [] => false
  | a :: as, b :: bs => a == b && startsWithChars as bs

/-- Predicate `containsChars needle hay`: `needle` occurs contiguously in `hay`. -/
def containsChars (needle : List Char) : List Char → Bool
  | [] => needle.isEmpty
  | b :: bs => startsWithChars needle (b :: bs) || containsChars needle bs

/-- ASCII lowercasing of a character, as Python `str.lower` acts on the
ASCII names used here. -/
def lowerChar (c : Char) : Char :=
  if 65 ≤ c.toNat ∧ c.toNat ≤ 90 then Char.ofNat (c.toNat + 32) else c

/-- Lowercase every character of a string, viewed as a character list. -/
def lowerChars (s : String) : List Char :=
  s.toList.map lowerChar

/-- What the spec and the function's own docstring describe: a
case-insensitive substring match of the filter against category names,
keeping every matching category's descriptors in order. -/
def filterByCategorySpec (registry : Registry) (cat : String) :
    List Benchmark :=
  ((registry.filter
      (fun p => containsChars (lowerChars cat) (lowerChars p.1))).map
    Prod.snd).flatten

/-- A registry with three categories, one descriptor each, used to test
the category filter. -/
def serRegistry : Registry :=
  [("Serialization", [⟨"Serialization", "ser_a", [10]⟩]),
   ("UserSerializer", [⟨"UserSerializer", "ser_b", [10]⟩]),
   ("Parsing", [⟨"Parsing", "par_a", [10]⟩])]

/-- Embedding of `GitInfos` from `_pipeline.py`: the full commit hash (`git rev-parse
HEAD`) and the commit timestamp (`git log -1 --format=%at`), both captured
once as strings. -/
structure GitInfos where
  hash : String
  timestamp : String
deriving DecidableEq, Repr

/-- A raw timing row, in the column order the source hands to the frame:
`schema=["category", "name", "size", "run_idx", "time"]`. -/
structure Row where
  category : String
  name : String
  size : Nat
  run_idx : Nat
  time : ℚ
deriving DecidableEq, Repr

/-- The grouping key used by `_compute_all_stats`:
`group_by("category", "name", "size")`. -/
abbrev GroupKey := String × String × Nat

/-- The grouping key of a raw timing row. -/
def Row.key (r : Row) : GroupKey := (r.category, r.name, r.size)

/-- An aggregated result row, with the fields declared by
`BenchmarksSchema` (`_pipeline.py` lines 17-26). -/
structure AggRow where
  category : String
  name : String
  size : Nat
  git_hash : String
  timestamp : String
  median : ℚ
  runs : Nat
deriving DecidableEq, Repr

/-- The grouping key of an aggregated row. -/
def AggRow.key (r : AggRow) : GroupKey := (r.category, r.name, r.size)

/-- First-occurrence deduplication: each element appears once, at the
position of its first occurrence. -/
def firstDedup {α : Type} [DecidableEq α] : List α → List α
  | [] => []
  | a :: as => a :: (firstDedup as).filter (fun x => x ≠ a)

/-- The elapsed times of the rows belonging to one group, in row order. -/
def timesFor (rows : List Row) (k : GroupKey) : List ℚ :=
  (rows.filter (fun r => r.key = k)).map Row.time

/-- The median as polars computes it (and as the spec describes): sort the
samples; an odd count takes the middle value, an even count the
arithmetic mean of the two middle values.  Groups are nonempty by
construction, so the empty case is unreachable. -/
def medianQ (l : List ℚ) : ℚ :=
  let s := List.insertionSort (· ≤ ·) l
  if s.length % 2 = 1 then s.getD (s.length / 2) 0
  else (s.getD (s.length / 2 - 1) 0 + s.getD (s.length / 2) 0) / 2

/-- Embedding of `_compute_all_stats` from `_pipeline.py`: group raw rows by
(category, name, size); per group take `median(time)` and `runs = len`;
attach the run's git hash and timestamp as literal columns, identical for
every group.  Polars emits one row per distinct key; first-occurrence
order is fixed here (the source does not rely on group order). -/
def compute_all_stats (git : GitInfos) (raw_rows : List Row) : List AggRow :=
  (firstDedup (raw_rows.map Row.key)).map (fun k =>
    { category := k.1, name := k.2.1, size := k.2.2,
      git_hash := git.hash, timestamp := git.timestamp,
      median := medianQ (timesFor raw_rows k),
      runs := (timesFor raw_rows k).length })

/-- Column names after `group_by("category","name","size").agg(...)`
followed by `.with_columns(GitInfos.new().to_exprs())`: the key columns,
the two aggregate columns, then the two appended literal columns. -/
def withGitColumns : List String :=
  ["category", "name", "size", "median", "runs", "git_hash", "timestamp"]

/-- The columns `BenchmarksSchema` declares, in declaration order
(`_pipeline.py` lines 17-26). -/
def benchmarksSchemaColumns : List String :=
  ["category", "name", "size", "git_hash", "timestamp", "median", "runs"]

/-- framelib `Schema.cast` conforms a frame to a declared schema: it
succeeds when every declared column is present in the input, and the
output then exposes exactly the declared columns. -/
def schemaCastColumns (input : List String) (schema : List String) :
    Option (List String) :=
  if schema.all (fun c => c ∈ input) then some schema else none

/-- The columns of the frame `_compute_all_stats` returns: the
grouped-and-stamped columns cast to `BenchmarksSchema`. -/
def computeAllStatsColumns : Option (List String) :=
  schemaCastColumns withGitColumns benchmarksSchemaColumns

/-- Modelled from the spec: `collect_raw_timings` (the Execution Engine,
defined in `_registery.py`, which is absent from the sources): for each
descriptor and each of its declared sizes, invoke the callable a fixed
number `reps` of times, producing one raw row per repetition; the oracle
`t` supplies the measured elapsed time of (descriptor, size, repetition). -/
def collect_raw_timings (reps : Nat) (t : Benchmark → Nat → Nat → ℚ)
    (benchs : List Benchmark) : List Row :=
  (benchs.map (fun b =>
    (b.sizes.map (fun s =>
      (List.range reps).map (fun i =>
        ⟨b.category, b.name, s, i, t b s i⟩))).flatten)).flatten

/-- The observable outcome of `run_pipeline`: either the aggregated
table it returns, or the text of the exception it raises
(`Result.expect` raises on an `Err`). -/
inductive RunOutcome
  | table (rows : List AggRow)
  | raised (msg : String)
deriving DecidableEq, Repr

/-- Embedding of `run_pipeline` from `_pipeline.py`, after discovery has produced
`registry`: filter by category, `ok_or` the "No benchmarks registered!"
error, collect raw timings, aggregate, and finally `.expect(...)`, which
returns the table on `Ok` and raises the prefixed error text on `Err`.
In this typed embedding `_try_collect` cannot hit a `PolarsError`, so the
only `Err` is the absent/empty filter result. -/
def run_pipeline (registry : Registry) (category : Option String)
    (git : GitInfos) (reps : Nat) (t : Benchmark → Nat → Nat → ℚ) :
    RunOutcome :=
  match filter_by_category registry category with
  | none => .raised ("Failed to run benchmarks -> \n" ++
      "No benchmarks registered!")
  | some benchs => .table (compute_all_stats git (collect_raw_timings reps t benchs))

/-- Parent side of the process boundary (`_run_bench_subprocess`): the
third child argument is `category or ""`, so both an absent filter and an
empty-string filter are encoded as the empty string. -/
def encodeCategoryArg (category : Option String) : String :=
  match category with
  | none => ""
  | some s => if s = "" then "" else s

/-- Child side (`_BENCH_SCRIPT`):
`category = sys.argv[3] if len(sys.argv) > 3 and sys.argv[3] else None`,
so an empty third argument decodes to no filter. -/
def decodeCategoryArg (a : String) : Option String :=
  if a = "" then none else some a

/-- Modelled from the spec: the persistent store's primary key,
`id = concat(category, name, size, first-N-chars(git_hash))`, on which
`insert_or_replace` upserts (`N = 8`, the short-hash width the runner
uses for worktree paths). -/
def rowId (r : AggRow) : String :=
  r.category ++ r.name ++ toString r.size ++ String.mk (r.git_hash.toList.take 8)

/-- Upsert of a single row: replace every stored row with the same `id`,
or append when the `id` is new. -/
def upsertRow (store : List AggRow) (r : AggRow) : List AggRow :=
  if store.any (fun x => rowId x == rowId r) then
    store.map (fun x => if rowId x == rowId r then r else x)
  else store ++ [r]

/-- The store collaborator's `insert_or_replace`, as `_save_results` uses
it: upsert every partition row, keyed by `id`. -/
def insert_or_replace (store : List AggRow) (p : List AggRow) : List AggRow :=
  p.foldl upsertRow store

/-- The effect of a fold of upserts on the stored `id` list: an already
present `id` leaves the list unchanged, a new one is appended. -/
def keyFold (ks : List String) (ps : List String) : List String :=
  ps.foldl (fun acc i => if i ∈ acc then acc else acc ++ [i]) ks

/-- Outcomes of the external collaborators for one commit, keyed by the
(resolved) commit string: reference resolution (`git rev-parse`, `none`
models failure), worktree creation, `uv sync`, and the benchmark child
process. -/
structure HistEnv where
  resolve : String → Option String
  addOk : String → Bool
  syncOk : String → Bool
  benchOk : String → Bool

/-- Embedding of `_resolve` inside `run_history`: `git rev-parse ref`, falling back to
the original reference string on failure (`unwrap_or(ref)`). -/
def resolveName (env : HistEnv) (ref : String) : String :=
  (env.resolve ref).getD ref

/-- The worktree path of one commit:
`Data.source().joinpath("worktrees", f"wt_{commit[:8]}")`. -/
def wtPath (commit : String) : String :=
  "worktrees/wt_" ++ String.mk (commit.toList.take 8)

/-- Observable state threaded through a historical sweep: the worktree
paths currently on disk, the commits `_run_commit` has run, and every
`git worktree remove` invocation issued. -/
structure HistState where
  disk : List String
  processed : List String
  removed : List String
deriving DecidableEq, Repr

/-- Embedding of `_run_commit` from `_history.py`: `git worktree add` (on success the
worktree appears on disk), then `uv sync`, then the benchmark child, each
chained with `and_then` so a failure short-circuits the rest; every step
returns a `Result`, so no exception escapes, and
`git worktree remove --force` is executed unconditionally afterwards. -/
def run_commit (env : HistEnv) (commit : String) (st : HistState) :
    HistState × Bool :=
  let stAdd :=
    if env.addOk commit then { st with disk := st.disk ++ [wtPath commit] }
    else st
  let ok := env.addOk commit && env.syncOk commit && env.benchOk commit
  ({ stAdd with
      disk := stAdd.disk.filter (fun p => p ≠ wtPath commit),
      processed := stAdd.processed ++ [commit],
      removed := stAdd.removed ++ [wtPath commit] }, ok)

/-- Embedding of `run_history` from `_history.py`: resolve every reference (with the
degraded fallback), then run `_run_commit` for each, in order; the result
of each commit is inspected for logging and discarded, so the iteration
never stops early. -/
def run_history (env : HistEnv) (commits : List String) (st : HistState) :
    HistState :=
  (commits.map (resolveName env)).foldl (fun s c => (run_commit env c s).1) st

/-- The temporary partitions one historical sweep writes: for each
resolved commit whose worktree creation, sync and child process all
succeed, the child's pipeline output table (the child decodes the
category argument the parent encoded).  A commit whose child pipeline
raises writes no partition (nonzero exit). -/
def sweepRows (env : HistEnv) (commits : List String) (registry : Registry)
    (category : Option String) (gitOf : String → GitInfos) (reps : Nat)
    (t : Benchmark → Nat → Nat → ℚ) : List AggRow :=
  ((commits.map (resolveName env)).map (fun c =>
    if env.addOk c && env.syncOk c && env.benchOk c then
      match run_pipeline registry (decodeCategoryArg (encodeCategoryArg category))
          (gitOf c) reps t with
      | .table rows => rows
      | .raised _ => []
    else [])).flatten

/-- A filesystem entry as discovery sees it: directory part, bare stem,
suffix, and whether it is a regular file. -/
structure PyFile where
  dir : String
  stem : String
  suffix : String
  isFile : Bool
deriving DecidableEq, Repr

/-- The full path of a file. -/
def PyFile.fullPath (f : PyFile) : String := f.dir ++ "/" ++ f.stem ++ f.suffix

/-- Eligibility test of `_import_module`: it loads `path` only when it is an existing `.py`
file. -/
def PyFile.eligible (f : PyFile) : Bool := f.isFile && f.suffix == ".py"

/-- Loader state: `sys.modules` (stem ↦ full path of the module loaded
under that stem) and the registration side effects accumulated in
`REGISTERY`, in load order. -/
structure LoaderState where
  modules : List (String × String)
  registered : List Benchmark
deriving DecidableEq, Repr

/-- Python dict assignment `sys.modules[stem] = module`: overwrite the
entry holding the key, keeping its position, or append a new one (dict
keys are unique and insertion-ordered). -/
def setModule : List (String × String) → String → String →
    List (String × String)
  | [], stem, path => [(stem, path)]
  | (k, v) :: m, stem, path =>
    if k = stem then (stem, path) :: m else (k, v) :: setModule m stem path

/-- Lookup in `sys.modules` by stem (dict lookup on a unique-key,
insertion-ordered association list). -/
def lookupModule : List (String × String) → String → Option String
  | [], _ => none
  | (k, v) :: m, s => if k = s then some v else lookupModule m s

/-- Embedding of `_import_module` from `_pipeline.py`: skip anything that is not an
existing `.py` file; otherwise store the module in `sys.modules` keyed by
the file's bare stem and execute it, which appends its registration side
effects (`effects f`) to the registry. -/
def import_module (effects : PyFile → List Benchmark) (st : LoaderState)
    (f : PyFile) : LoaderState :=
  if f.eligible then
    { modules := setModule st.modules f.stem f.fullPath,
      registered := st.registered ++ effects f }
  else st

/-- Loading a sequence of files in order. -/
def load_all (effects : PyFile → List Benchmark) (st : LoaderState)
    (fs : List PyFile) : LoaderState :=
  fs.foldl (import_module effects) st

/-- The last file of a list satisfying a predicate, if any. -/
def lastWith (pred : PyFile → Bool) : List PyFile → Option PyFile
  | [] => none
  | f :: fs =>
    match lastWith pred fs with
    | some g => some g
    | none => if pred f then some f else none

/-- A directory entry seen by `_discover_benchmarks`: a file, or a
directory together with its `.py` files in `rglob` order. -/
inductive DirEntry
  | file (f : PyFile)
  | dir (dirname : String) (contents : List PyFile)
deriving Repr

/-- The name of an entry, as `p.name` exposes it. -/
def entryName : DirEntry → String
  | .file f => f.stem ++ f.suffix
  | .dir n _ => n

/-- Embedding of `_discover_benchmarks` from `_pipeline.py`: keep the entries whose
name lowercased starts with "bench"; a file entry is loaded itself, a
directory entry contributes its `.py` files; everything is loaded in
order by `_import_module`. -/
def discoverOrder (entries : List DirEntry) : List PyFile :=
  ((entries.filter
      (fun e => startsWithChars "bench".toList (lowerChars (entryName e)))).map
    (fun e => match e with | .file f => [f] | .dir _ cs => cs)).flatten

/-- Discovery followed by loading: the loader state after
`_discover_benchmarks` has run over `entries`. -/
def discover_benchmarks (effects : PyFile → List Benchmark)
    (st : LoaderState) (entries : List DirEntry) : LoaderState :=
  load_all effects st (discoverOrder entries)

/-- Concrete collaborator outcomes used by witnesses: resolution always
fails (degraded fallback to the reference string), worktree creation
succeeds, the environment sync fails for one commit, the child process
succeeds. -/
def envW : HistEnv :=
  { resolve := fun _ => none,
    addOk := fun _ => true,
    syncOk := fun c => c != "deadbeefcafe",
    benchOk := fun _ => true }

/-- Concrete git metadata used by witnesses. -/
def gitX : GitInfos := ⟨"abcdef0123456789", "1700000000"⟩

/-- Concrete raw timing rows used by witnesses: one group of three
samples. -/
def rowsX : List Row :=
  [⟨"c", "n", 1, 0, 1⟩, ⟨"c", "n", 1, 1, 3⟩, ⟨"c", "n", 1, 2, 2⟩]

/-- The aggregated row `compute_all_stats gitX rowsX` produces. -/
def aggX : AggRow :=
  { category := "c", name := "n", size := 1,
    git_hash := "abcdef0123456789", timestamp := "1700000000",
    median := 2, runs := 3 }

/-- Elements of a first-occurrence deduplication all occur in the
original list. -/
theorem mem_of_mem_firstDedup {α : Type} [DecidableEq α] {x : α} :
    ∀ {l : List α}, x ∈ firstDedup l → x ∈ l
  | [] => by simp [firstDedup]
  | a :: as => by
    intro h
    simp only [firstDedup, List.mem_cons, List.mem_filter] at h
    rcases h with h | ⟨h, -⟩
    · exact h ▸ List.mem_cons_self a as
    · exact List.mem_cons_of_mem _ (mem_of_mem_firstDedup h)

/-- The aggregation emits exactly one row per distinct input group key,
in first-occurrence order. -/
theorem map_key_compute_all_stats (git : GitInfos) (rows : List Row) :
    (compute_all_stats git rows).map AggRow.key =
      firstDedup (rows.map Row.key) := by
  unfold compute_all_stats
  rw [List.map_map]
  have h : ∀ k ∈ firstDedup (rows.map Row.key),
      (AggRow.key ∘ fun k : GroupKey =>
        ({ category := k.1, name := k.2.1, size := k.2.2,
           git_hash := git.hash, timestamp := git.timestamp,
           median := medianQ (timesFor rows k),
           runs := (timesFor rows k).length } : AggRow)) k = id k := by
    intro k _
    obtain ⟨a, b, c⟩ := k
    rfl
  rw [List.map_congr_left h, List.map_id]

/-- C1: the claim says filtering by "ser" performs a case-insensitive
substring match, returning the descriptors of "Serialization" and
"UserSerializer".  The code instead performs an exact dictionary key
lookup: `get_item "ser"` finds no key named "ser" and returns `none`
(so the pipeline fails with "No benchmarks registered!"), even though the
substring semantics would return two categories' descriptors.  The code
contradicts its own docstring ("case-insensitive partial match"). -/
theorem C1_filter_exact_lookup_not_substring :
    filter_by_category serRegistry (some "ser") = none ∧
    filterByCategorySpec serRegistry "ser" =
      [⟨"Serialization", "ser_a", [10]⟩, ⟨"UserSerializer", "ser_b", [10]⟩] ∧
    filter_by_category serRegistry (some "Serialization") =
      some [⟨"Serialization", "ser_a", [10]⟩] := by
  refine ⟨rfl, by decide, rfl⟩

/-- C2 (counterexample): the aggregation step computes no `id` column.
The frame `_compute_all_stats` returns is cast to `BenchmarksSchema`,
which declares exactly category, name, size, git_hash, timestamp, median
and runs; the cast succeeds and `"id"` is not among the columns, so no
aggregated row carries an `id` string field. -/
theorem C2_counterexample_no_id_column :
    computeAllStatsColumns = some benchmarksSchemaColumns ∧
    "id" ∉ benchmarksSchemaColumns := by
  exact ⟨rfl, by decide⟩

/-- C2 (amended): every aggregated row carries exactly the seven
`BenchmarksSchema` fields — category, name, size, git_hash, timestamp,
median, runs — and no `id` field; the identifying fields (category,
name, size) come from an input group key and git_hash is the run's
commit hash, so row identity is still deterministic, but no `id` string
is computed by the aggregation step. -/
theorem C2_amended_schema_fields (git : GitInfos) (rows : List Row)
    (r : AggRow) (h : r ∈ compute_all_stats git rows) :
    computeAllStatsColumns = some benchmarksSchemaColumns ∧
    "id" ∉ benchmarksSchemaColumns ∧
    r.key ∈ rows.map Row.key ∧ r.git_hash = git.hash := by
  refine ⟨rfl, by decide, ?_, ?_⟩
  · simp only [compute_all_stats, List.mem_map] at h
    obtain ⟨⟨a, b, c⟩, hk, rfl⟩ := h
    exact mem_of_mem_firstDedup hk
  · simp only [compute_all_stats, List.mem_map] at h
    obtain ⟨k, -, rfl⟩ := h
    rfl

/-- Witness for C2's amended theorem at a concrete aggregation run. -/
theorem C2_amended_schema_fields_witness :
    aggX ∈ compute_all_stats gitX rowsX ∧
    (computeAllStatsColumns = some benchmarksSchemaColumns ∧
     "id" ∉ benchmarksSchemaColumns ∧
     aggX.key ∈ rowsX.map Row.key ∧ aggX.git_hash = gitX.hash) := by
  have hmem : aggX ∈ compute_all_stats gitX rowsX := by
    simp [compute_all_stats, gitX, rowsX, aggX, firstDedup, timesFor,
      Row.key, medianQ, List.insertionSort, List.orderedInsert]
  exact ⟨hmem, C2_amended_schema_fields gitX rowsX aggX hmem⟩

/-- C7: within one pipeline run every aggregated row carries the
identical git hash and the identical timestamp: `GitInfos.new()` is
evaluated once inside `_compute_all_stats` and attached as literal
columns to every group. -/
theorem C7_uniform_git_metadata (git : GitInfos) (rows : List Row)
    (r : AggRow) (h : r ∈ compute_all_stats git rows) :
    r.git_hash = git.hash ∧ r.timestamp = git.timestamp := by
  simp only [compute_all_stats, List.mem_map] at h
  obtain ⟨k, -, rfl⟩ := h
  exact ⟨rfl, rfl⟩

/-- Witness for C7 at a concrete aggregation run. -/
theorem C7_uniform_git_metadata_witness :
    aggX ∈ compute_all_stats gitX rowsX ∧
    (aggX.git_hash = gitX.hash ∧ aggX.timestamp = gitX.timestamp) := by
  have hmem : aggX ∈ compute_all_stats gitX rowsX := by
    simp [compute_all_stats, gitX, rowsX, aggX, firstDedup, timesFor,
      Row.key, medianQ, List.insertionSort, List.orderedInsert]
  exact ⟨hmem, C7_uniform_git_metadata gitX rowsX aggX hmem⟩

/-- C8: the aggregator groups raw rows by (category, name, size) — one
output row per distinct key — and each output row carries the standard
median of its group's elapsed times (middle value for an odd count,
mean of the two middle values for an even count) and `runs` equal to the
group's sample count; concretely, `{1,2,3}` aggregates to median `2` and
`{1,2,3,4}` to `5/2`. -/
theorem C8_group_median_runs (git : GitInfos) (rows : List Row)
    (r : AggRow) (h : r ∈ compute_all_stats git rows) :
    r.median = medianQ (timesFor rows r.key) ∧
    r.runs = (timesFor rows r.key).length ∧
    (compute_all_stats git rows).map AggRow.key =
      firstDedup (rows.map Row.key) ∧
    medianQ [1, 2, 3] = 2 ∧ medianQ [1, 2, 3, 4] = 5 / 2 := by
  refine ⟨?_, ?_, map_key_compute_all_stats git rows, ?_, ?_⟩
  · simp only [compute_all_stats, List.mem_map] at h
    obtain ⟨⟨a, b, c⟩, -, rfl⟩ := h
    rfl
  · simp only [compute_all_stats, List.mem_map] at h
    obtain ⟨⟨a, b, c⟩, -, rfl⟩ := h
    rfl
  · norm_num [medianQ, List.insertionSort, List.orderedInsert]
  · norm_num [medianQ, List.insertionSort, List.orderedInsert]

/-- Witness for C8 at a concrete aggregation run. -/
theorem C8_group_median_runs_witness :
    aggX ∈ compute_all_stats gitX rowsX ∧
    (aggX.median = medianQ (timesFor rowsX aggX.key) ∧
     aggX.runs = (timesFor rowsX aggX.key).length ∧
     (compute_all_stats gitX rowsX).map AggRow.key =
       firstDedup (rowsX.map Row.key) ∧
     medianQ [1, 2, 3] = 2 ∧ medianQ [1, 2, 3, 4] = 5 / 2) := by
  have hmem : aggX ∈ compute_all_stats gitX rowsX := by
    simp [compute_all_stats, gitX, rowsX, aggX, firstDedup, timesFor,
      Row.key, medianQ, List.insertionSort, List.orderedInsert]
  exact ⟨hmem, C8_group_median_runs gitX rowsX aggX hmem⟩

/-- C6 (counterexample): at the concrete empty registry the pipeline does
not return a failure value: the chain ends in `.expect(...)`, which on the
typed `Err` raises an exception (the `RunOutcome.raised` arm) with the
prefixed message, so failure is signalled by raising, not by a returned
typed-failure value. -/
theorem C6_counterexample_raises :
    run_pipeline [] none gitX 3 (fun _ _ _ => 0) =
      RunOutcome.raised
        ("Failed to run benchmarks -> \n" ++ "No benchmarks registered!") := rfl

/-- C6 (amended): the pipeline composes typed results internally, but
`run_pipeline` unwraps them with `.expect`: it raises the prefixed
"No benchmarks registered!" exception exactly when the category filter
yields nothing, and otherwise returns the aggregated table. -/
theorem C6_amended_outcomes (registry : Registry) (category : Option String)
    (git : GitInfos) (reps : Nat) (t : Benchmark → Nat → Nat → ℚ) :
    (filter_by_category registry category = none ∧
      run_pipeline registry category git reps t =
        RunOutcome.raised
          ("Failed to run benchmarks -> \n" ++ "No benchmarks registered!"))
    ∨ (∃ benchs, filter_by_category registry category = some benchs ∧
        run_pipeline registry category git reps t =
          RunOutcome.table
            (compute_all_stats git (collect_raw_timings reps t benchs))) := by
  cases h : filter_by_category registry category with
  | none =>
    refine Or.inl ⟨rfl, ?_⟩
    unfold run_pipeline
    rw [h]
  | some benchs =>
    refine Or.inr ⟨benchs, rfl, ?_⟩
    unfold run_pipeline
    rw [h]

/-- C9: at the process boundary an absent category filter is encoded as
the empty-string argument (`category or ""`) and the child decodes an
empty third argument back to no filter, so the round trip sends exactly
`none` and `some ""` to `none`, and a child invoked with the empty-string
filter behaves identically to one invoked with no filter. -/
theorem C9_empty_category_is_no_filter :
    (∀ c : Option String,
      (decodeCategoryArg (encodeCategoryArg c) = none ↔
        (c = none ∨ c = some ""))) ∧
    (∀ (registry : Registry) (git : GitInfos) (reps : Nat)
        (t : Benchmark → Nat → Nat → ℚ),
      run_pipeline registry (decodeCategoryArg (encodeCategoryArg (some "")))
          git reps t =
        run_pipeline registry (decodeCategoryArg (encodeCategoryArg none))
          git reps t) := by
  constructor
  · intro c
    cases c with
    | none => simp [encodeCategoryArg, decodeCategoryArg]
    | some s =>
      by_cases hs : s = ""
      · subst hs
        simp [encodeCategoryArg, decodeCategoryArg]
      · simp [encodeCategoryArg, decodeCategoryArg, hs]
  · intro registry git reps t
    rfl

/-- Running one commit always ends with the unconditional
`git worktree remove --force`: whatever the step outcomes, the commit's
worktree path is absent from disk afterwards, and nothing else changed on
disk. -/
theorem run_commit_disk (env : HistEnv) (commit : String) (st : HistState) :
    ((run_commit env commit st).1).disk =
      st.disk.filter (fun p => p ≠ wtPath commit) := by
  unfold run_commit
  by_cases h : env.addOk commit
  · simp only [if_pos h, List.filter_append]
    simp
  · simp only [if_neg h]

/-- Running one commit records exactly one `git worktree remove`
invocation, for that commit's worktree path. -/
theorem run_commit_removed (env : HistEnv) (commit : String) (st : HistState) :
    ((run_commit env commit st).1).removed = st.removed ++ [wtPath commit] := by
  unfold run_commit
  by_cases h : env.addOk commit <;> simp [h]

/-- Running one commit appends exactly that commit to the processed
list. -/
theorem run_commit_processed (env : HistEnv) (commit : String)
    (st : HistState) :
    ((run_commit env commit st).1).processed = st.processed ++ [commit] := by
  unfold run_commit
  by_cases h : env.addOk commit <;> simp [h]

/-- A path absent from disk stays absent across a sequence of commit
runs: each run only filters the disk (net of its own add-then-remove). -/
theorem foldl_run_commit_disk_mono (env : HistEnv) (q : String) :
    ∀ (cs : List String) (st : HistState), q ∉ st.disk →
      q ∉ (cs.foldl (fun s c => (run_commit env c s).1) st).disk
  | [], _, h => h
  | c :: cs, st, h => by
    rw [List.foldl_cons]
    apply foldl_run_commit_disk_mono env q cs
    rw [run_commit_disk]
    intro hc
    exact h (List.mem_of_mem_filter hc)

/-- After a sequence of commit runs, the worktree path of every commit in
the sequence is off disk. -/
theorem foldl_run_commit_wt_gone (env : HistEnv) :
    ∀ (cs : List String) (st : HistState) (c : String), c ∈ cs →
      wtPath c ∉ (cs.foldl (fun s x => (run_commit env x s).1) st).disk
  | [], _, _, h => absurd h (List.not_mem_nil _)
  | c0 :: cs, st, c, h => by
    rw [List.foldl_cons]
    rcases List.mem_cons.mp h with rfl | htail
    · apply foldl_run_commit_disk_mono
      rw [run_commit_disk]
      simp [List.mem_filter]
    · exact foldl_run_commit_wt_gone env cs _ c htail

/-- A sequence of commit runs records one removal per commit, in
order. -/
theorem foldl_run_commit_removed (env : HistEnv) :
    ∀ (cs : List String) (st : HistState),
      (cs.foldl (fun s c => (run_commit env c s).1) st).removed =
        st.removed ++ cs.map wtPath
  | [], st => by simp
  | c :: cs, st => by
    rw [List.foldl_cons, foldl_run_commit_removed env cs, run_commit_removed]
    simp

/-- A sequence of commit runs processes exactly its commits, in order. -/
theorem foldl_run_commit_processed (env : HistEnv) :
    ∀ (cs : List String) (st : HistState),
      (cs.foldl (fun s c => (run_commit env c s).1) st).processed =
        st.processed ++ cs
  | [], st => by simp
  | c :: cs, st => by
    rw [List.foldl_cons, foldl_run_commit_processed env cs,
      run_commit_processed]
    simp

/-- C4: for every commit the batch processes — whatever the outcomes of
worktree creation, environment sync and the child process —
`git worktree remove --force` is invoked for that commit's worktree path
and the path is not on disk once the batch finishes. -/
theorem C4_worktree_cleanup (env : HistEnv) (commits : List String)
    (st : HistState) (c : String) (h : c ∈ commits.map (resolveName env)) :
    wtPath c ∈ (run_history env commits st).removed ∧
    wtPath c ∉ (run_history env commits st).disk := by
  unfold run_history
  refine ⟨?_, foldl_run_commit_wt_gone env _ st c h⟩
  rw [foldl_run_commit_removed]
  exact List.mem_append_right _ (List.mem_map_of_mem wtPath h)

/-- C5: the batch always completes a full pass: the list of commits
`_run_commit` is invoked on equals the whole resolved commit list, in
order, for every combination of per-commit step outcomes (all steps
return `Result`s, so no failure can escape and cut the iteration
short). -/
theorem C5_full_pass (env : HistEnv) (commits : List String)
    (st : HistState) :
    (run_history env commits st).processed =
      st.processed ++ commits.map (resolveName env) := by
  unfold run_history
  exact foldl_run_commit_processed env _ st

/-- Witness for C4 at a concrete two-commit batch in which the second
step (sync) fails for the first commit. -/
theorem C4_worktree_cleanup_witness :
    "deadbeefcafe" ∈
      (["deadbeefcafe", "0123456789ab"].map (resolveName envW)) ∧
    (wtPath "deadbeefcafe" ∈
        (run_history envW ["deadbeefcafe", "0123456789ab"] ⟨[], [], []⟩).removed ∧
     wtPath "deadbeefcafe" ∉
        (run_history envW ["deadbeefcafe", "0123456789ab"] ⟨[], [], []⟩).disk) := by
  have h : "deadbeefcafe" ∈
      (["deadbeefcafe", "0123456789ab"].map (resolveName envW)) := by decide
  exact ⟨h, C4_worktree_cleanup envW ["deadbeefcafe", "0123456789ab"] ⟨[], [], []⟩
    "deadbeefcafe" h⟩

/-- Assigning `sys.modules[stem]` affects exactly the entry for `stem`:
a later lookup of `stem` yields the new module, any other stem is
untouched. -/
theorem lookupModule_setModule :
    ∀ (m : List (String × String)) (stem path s : String),
      lookupModule (setModule m stem path) s =
        if s = stem then some path else lookupModule m s
  | [], stem, path, s => by
    by_cases h : s = stem
    · subst h
      simp [setModule, lookupModule]
    · simp [setModule, lookupModule, h, Ne.symm h]
  | (k, v) :: m, stem, path, s => by
    by_cases hk : k = stem
    · subst hk
      simp only [setModule, if_pos rfl, lookupModule]
      by_cases hs : k = s
      · simp [hs]
      · simp [hs, Ne.symm hs]
    · simp only [setModule, if_neg hk, lookupModule]
      by_cases hs : k = s
      · subst hs
        simp [hk]
      · simp only [if_neg hs]
        exact lookupModule_setModule m stem path s

/-- After loading a sequence of files, a stem resolves to the full path
of the last eligible file with that stem, or to whatever it resolved to
before when no loaded file has that stem: the later load always
overwrites the earlier one. -/
theorem lookup_load_all (effects : PyFile → List Benchmark) :
    ∀ (fs : List PyFile) (st : LoaderState) (stem : String),
      lookupModule (load_all effects st fs).modules stem =
        (match lastWith (fun f => f.eligible && f.stem == stem) fs with
         | some g => some g.fullPath
         | none => lookupModule st.modules stem)
  | [], _, _ => rfl
  | f :: fs, st, stem => by
    show lookupModule (load_all effects (import_module effects st f) fs).modules
        stem = _
    rw [lookup_load_all effects fs (import_module effects st f) stem]
    cases hl : lastWith (fun f => f.eligible && f.stem == stem) fs with
    | some g => simp [lastWith, hl]
    | none =>
      simp only [lastWith, hl]
      unfold import_module
      by_cases he : f.eligible
      · simp only [if_pos he]
        rw [lookupModule_setModule]
        by_cases hstem : stem = f.stem
        · simp [he, hstem]
        · simp [he, hstem, Ne.symm hstem]
      · simp [he]

/-- Loading a sequence of files appends every eligible file's
registration side effects to the registry, in load order. -/
theorem registered_load_all (effects : PyFile → List Benchmark) :
    ∀ (fs : List PyFile) (st : LoaderState),
      (load_all effects st fs).registered =
        st.registered ++ ((fs.filter PyFile.eligible).map effects).flatten
  | [], st => by simp [load_all]
  | f :: fs, st => by
    show (load_all effects (import_module effects st f) fs).registered = _
    rw [registered_load_all effects fs (import_module effects st f)]
    unfold import_module
    by_cases he : f.eligible
    · simp [he, List.filter_cons, List.append_assoc]
    · simp [he, List.filter_cons]

/-- C10: discovery loads files into `sys.modules` keyed by the bare stem
only — after a discovery pass a stem resolves to the full path of the
LAST discovered eligible file with that stem (later loads overwrite
earlier ones that share a stem), while the registration side effects of
all eligible files, earlier and later alike, accumulate in the
registry in load order. -/
theorem C10_stem_keyed_last_writer_wins (effects : PyFile → List Benchmark)
    (st : LoaderState) (entries : List DirEntry) (stem : String) :
    lookupModule (discover_benchmarks effects st entries).modules stem =
      (match lastWith (fun f => f.eligible && f.stem == stem)
          (discoverOrder entries) with
       | some g => some g.fullPath
       | none => lookupModule st.modules stem) ∧
    (discover_benchmarks effects st entries).registered =
      st.registered ++
        (((discoverOrder entries).filter PyFile.eligible).map effects).flatten :=
  ⟨lookup_load_all effects (discoverOrder entries) st stem,
   registered_load_all effects (discoverOrder entries) st⟩

/-- Upserting one row keyed by `id`: an already stored `id` keeps the
stored `id` list unchanged (the row is replaced in place), a new `id` is
appended. -/
theorem map_rowId_upsertRow (s : List AggRow) (r : AggRow) :
    (upsertRow s r).map rowId =
      if rowId r ∈ s.map rowId then s.map rowId
      else s.map rowId ++ [rowId r] := by
  have hiff : (s.any (fun x => rowId x == rowId r) = true) ↔
      rowId r ∈ s.map rowId := by
    simp only [List.any_eq_true, beq_iff_eq, List.mem_map]
  unfold upsertRow
  by_cases h : rowId r ∈ s.map rowId
  · rw [if_pos (hiff.mpr h), if_pos h, List.map_map]
    apply List.map_congr_left
    intro x _
    simp only [Function.comp_apply]
    by_cases hxe : rowId x = rowId r
    · simp [hxe]
    · simp [hxe]
  · rw [if_neg (fun hc => h (hiff.mp hc)), if_neg h, List.map_append]
    rfl

/-- The `id` list of a store after `insert_or_replace` is the fold of
the partition's `id` list into the store's `id` list. -/
theorem map_rowId_insert_or_replace :
    ∀ (p : List AggRow) (s : List AggRow),
      (insert_or_replace s p).map rowId = keyFold (s.map rowId) (p.map rowId)
  | [], s => rfl
  | r :: p, s => by
    show (insert_or_replace (upsertRow s r) p).map rowId = _
    rw [map_rowId_insert_or_replace p (upsertRow s r), map_rowId_upsertRow]
    rfl

/-- Keys present before a key fold are still present after it. -/
theorem mem_keyFold_of_mem_left {i : String} :
    ∀ (ps ks : List String), i ∈ ks → i ∈ keyFold ks ps
  | [], _, h => h
  | j :: ps, ks, h => by
    show i ∈ keyFold (if j ∈ ks then ks else ks ++ [j]) ps
    apply mem_keyFold_of_mem_left ps
    by_cases hj : j ∈ ks
    · rwa [if_pos hj]
    · rw [if_neg hj]
      exact List.mem_append_left _ h

/-- Every folded key is present after the key fold. -/
theorem mem_keyFold_of_mem_right {i : String} :
    ∀ (ps ks : List String), i ∈ ps → i ∈ keyFold ks ps
  | [], _, h => absurd h (List.not_mem_nil _)
  | j :: ps, ks, h => by
    show i ∈ keyFold (if j ∈ ks then ks else ks ++ [j]) ps
    rcases List.mem_cons.mp h with rfl | htail
    · apply mem_keyFold_of_mem_left ps
      by_cases hj : i ∈ ks
      · rwa [if_pos hj]
      · rw [if_neg hj]
        exact List.mem_append_right _ (List.mem_singleton.mpr rfl)
    · exact mem_keyFold_of_mem_right ps _ htail

/-- Folding keys that are all already present changes nothing. -/
theorem keyFold_eq_self :
    ∀ (ps ks : List String), (∀ i ∈ ps, i ∈ ks) → keyFold ks ps = ks
  | [], _, _ => rfl
  | j :: ps, ks, h => by
    show keyFold (if j ∈ ks then ks else ks ++ [j]) ps = ks
    rw [if_pos (h j (List.mem_cons_self j ps))]
    exact keyFold_eq_self ps ks (fun i hi => h i (List.mem_cons_of_mem j hi))

/-- Folding the same keys twice equals folding them once. -/
theorem keyFold_idem (ks ps : List String) :
    keyFold (keyFold ks ps) ps = keyFold ks ps :=
  keyFold_eq_self ps _ (fun _ hi => mem_keyFold_of_mem_right ps ks hi)

/-- Mapping over a flattened list of blocks maps over each block. -/
theorem map_flatten_local {α β : Type} (f : α → β) :
    ∀ L : List (List α), (L.flatten).map f = (L.map (List.map f)).flatten
  | [] => rfl
  | l :: L => by
    simp only [List.flatten_cons, List.map_append, List.map_cons]
    rw [map_flatten_local f L]

/-- The group keys of one descriptor's raw rows: one key per declared
size, repeated once per repetition, independent of the measured times. -/
theorem map_key_bench_block (reps : Nat) (t : Benchmark → Nat → Nat → ℚ)
    (b : Benchmark) :
    ∀ sizes : List Nat,
      (((sizes.map (fun s => (List.range reps).map
          (fun i => (⟨b.category, b.name, s, i, t b s i⟩ : Row)))).flatten).map
        Row.key) =
        ((sizes.map (fun s => (List.range reps).map
          (fun _ => ((b.category, b.name, s) : GroupKey)))).flatten)
  | [] => rfl
  | s :: ss => by
    simp only [List.map_cons, List.flatten_cons, List.map_append]
    rw [map_key_bench_block reps t b ss, List.map_map]
    rfl

/-- The group keys the execution engine produces are a function of the
descriptors and the repetition count alone. -/
theorem map_key_collect_closed (reps : Nat) (t : Benchmark → Nat → Nat → ℚ) :
    ∀ benchs : List Benchmark,
      (collect_raw_timings reps t benchs).map Row.key =
        ((benchs.map (fun b => ((b.sizes.map (fun s => (List.range reps).map
            (fun _ => ((b.category, b.name, s) : GroupKey)))).flatten))).flatten)
  | [] => rfl
  | b :: bs => by
    unfold collect_raw_timings
    simp only [List.map_cons, List.flatten_cons, List.map_append]
    rw [map_key_bench_block reps t b b.sizes]
    congr 1
    have h := map_key_collect_closed reps t bs
    unfold collect_raw_timings at h
    exact h

/-- Two engine runs with different timing oracles produce rows with the
same group keys. -/
theorem map_key_collect_oracle_free (reps : Nat)
    (t1 t2 : Benchmark → Nat → Nat → ℚ) (benchs : List Benchmark) :
    (collect_raw_timings reps t1 benchs).map Row.key =
      (collect_raw_timings reps t2 benchs).map Row.key := by
  rw [map_key_collect_closed reps t1 benchs,
    map_key_collect_closed reps t2 benchs]

/-- The `id`s of an aggregation are a function of the distinct input
group keys and the commit hash alone. -/
theorem map_rowId_compute_all_stats (git : GitInfos) (rows : List Row) :
    (compute_all_stats git rows).map rowId =
      (firstDedup (rows.map Row.key)).map
        (fun k => k.1 ++ k.2.1 ++ toString k.2.2 ++
          String.mk (git.hash.toList.take 8)) := by
  unfold compute_all_stats
  rw [List.map_map]
  rfl

/-- Two sweeps over the same commits with the same collaborator outcomes
write partitions with identical `id` lists, whatever the measured
times. -/
theorem sweep_ids_oracle_free (env : HistEnv) (commits : List String)
    (registry : Registry) (category : Option String)
    (gitOf : String → GitInfos) (reps : Nat)
    (t1 t2 : Benchmark → Nat → Nat → ℚ) :
    (sweepRows env commits registry category gitOf reps t1).map rowId =
      (sweepRows env commits registry category gitOf reps t2).map rowId := by
  unfold sweepRows
  rw [map_flatten_local, map_flatten_local]
  congr 1
  simp only [List.map_map]
  apply List.map_congr_left
  intro ref _
  simp only [Function.comp_apply]
  set c := resolveName env ref with hc
  by_cases h : (env.addOk c && env.syncOk c && env.benchOk c) = true
  · rw [if_pos h, if_pos h]
    unfold run_pipeline
    cases hf : filter_by_category registry
        (decodeCategoryArg (encodeCategoryArg category)) with
    | none => rfl
    | some benchs =>
      simp only
      rw [map_rowId_compute_all_stats, map_rowId_compute_all_stats,
        map_key_collect_oracle_free reps t1 t2 benchs]
  · rw [if_neg h, if_neg h]

/-- C3: merging the partitions of a second sweep over the same commit
list (same collaborator outcomes; the measured timings may differ
arbitrarily) into a store that already merged the first sweep leaves the
row count unchanged: the final upsert keyed by the deterministic `id`
replaces matching rows instead of duplicating them. -/
theorem C3_rerun_merge_same_rowcount (env : HistEnv) (commits : List String)
    (registry : Registry) (category : Option String)
    (gitOf : String → GitInfos) (reps : Nat)
    (t1 t2 : Benchmark → Nat → Nat → ℚ) (store : List AggRow) :
    (insert_or_replace
        (insert_or_replace store
          (sweepRows env commits registry category gitOf reps t1))
        (sweepRows env commits registry category gitOf reps t2)).length =
      (insert_or_replace store
        (sweepRows env commits registry category gitOf reps t1)).length := by
  have hlen : ∀ s : List AggRow, s.length = (s.map rowId).length :=
    fun s => (List.length_map s rowId).symm
  rw [hlen, hlen (insert_or_replace store
    (sweepRows env commits registry category gitOf reps t1))]
  rw [map_rowId_insert_or_replace, map_rowId_insert_or_replace]
  rw [sweep_ids_oracle_free env commits registry category gitOf reps t2 t1]
  rw [keyFold_idem]
